import Mathlib

/-!
Verification of the similarity-scoring core of `hpo_similarity`.

The embedding below mirrors, definition by definition, the Python source:
  * `src/similarity.py` — `CalculateSimilarity` (tallying, ancestor and
    descendant queries, common ancestors) and `ICSimilarity`
    (information content, subtree counts, the two memoization caches);
  * `hpo_similarity.py` — `geomean`, `get_score_for_pair`,
    `get_proband_similarity`, `test_similarity`;
  * `hpo_similarity/get_scores.py` — its alternative `get_proband_similarity`.

Modelling conventions.
HPO term identifiers and proband identifiers are opaque strings in the
source; both are embedded as `Nat`.  Python dictionaries are embedded as
insertion-ordered association lists (`List (Nat × β)` with `lookupA` and
`setA` below).  The ontology graph (a `networkx.DiGraph` built outside the
core) is an explicit node list plus a parent→child edge list; the library
calls `networkx.descendants` / `networkx.ancestors` (reachability queries
over the immutable graph) are embedded as fuel-bounded breadth-first
closures.  Floating point arithmetic is embedded as real arithmetic
(`math.log` as `Real.log`, `10 ** x` as real exponentiation).  A Python
function that can raise (`ZeroDivisionError` in a division, `ValueError`
from `math.log` on a non-positive argument or from `max` on an empty
sequence, `ValueError` from `random.sample` when the requested size exceeds
the population) returns an `Option` here, with `none` marking the raise.
The instance attributes `descendant_cache` / `ancestor_cache` memoize pure
functions of the immutable graph alone, never of the tallied frequencies,
so they are embedded directly as the pure functions `get_subterms` /
`get_ancestors`; the class attributes `counts_cache` / `ic_cache` of
`ICSimilarity`, which do depend on the tallied frequencies, are carried
explicitly in the state `ICState` and threaded through every operation,
exactly as the source mutates them.
-/

/-- Lookup in an insertion-ordered association list: the embedding of
`d[k]` / `k in d` for a Python dict `d` with `Nat` keys. -/
def lookupA {β : Type} : List (Nat × β) → Nat → Option β
  | [], _ => none
  | (k, v) :: t, key => if k = key then some v else lookupA t key

/-- Update (or append) a key in an association list: the embedding of
`d[k] = v` for a Python dict, preserving insertion order. -/
def setA {β : Type} : List (Nat × β) → Nat → β → List (Nat × β)
  | [], key, v => [(key, v)]
  | (k, w) :: t, key, v => if k = key then (k, v) :: t else (k, w) :: setA t key v

/-- Lookup with a zero default, the embedding of `d.get(k, 0)`, used when summing tallies: absent keys
count as zero (the source guards each addition with `k in d`). -/
def lookupD (l : List (Nat × Nat)) (k : Nat) : Nat := (lookupA l k).getD 0

/-- The HPO ontology graph handed to `CalculateSimilarity.__init__`:
node list plus parent→child edges of the `networkx.DiGraph`. -/
structure HPOGraph where
  nodes : List Nat
  edges : List (Nat × Nat)

/-- Membership test `self.graph.has_node(term)` / `term in self.graph`. -/
def HPOGraph.hasNode (g : HPOGraph) (t : Nat) : Bool := g.nodes.contains t

/-- Direct successors (children) of a node in the edge list. -/
def successors (g : HPOGraph) (t : Nat) : List Nat :=
  (g.edges.filter (fun e => decide (e.1 = t))).map Prod.snd

/-- Direct predecessors (parents) of a node in the edge list. -/
def predecessors (g : HPOGraph) (t : Nat) : List Nat :=
  (g.edges.filter (fun e => decide (e.2 = t))).map Prod.fst

/-- Fuel-bounded breadth-first closure of a neighbour function, collecting
the visited nodes in first-visit order; the embedding of `networkx`
reachability (`descendants` / `ancestors`) over a finite immutable graph. -/
def reachAux (next : Nat → List Nat) : Nat → List Nat → List Nat → List Nat
  | 0, _, visited => visited
  | _ + 1, [], visited => visited
  | fuel + 1, x :: rest, visited =>
    if visited.contains x then reachAux next fuel rest visited
    else reachAux next fuel (rest ++ next x) (visited ++ [x])

/-- Enough fuel to exhaust any closure over the graph's finite edge list. -/
def graphFuel (g : HPOGraph) : Nat :=
  (g.nodes.length + g.edges.length + 1) * (g.nodes.length + g.edges.length + 1)

/-- Embedding of `CalculateSimilarity.get_subterms`: `networkx.descendants(self.graph,
top_term)` — every node reachable from `top_term`, excluding it.  The
instance-level `descendant_cache` memoizes this pure function of the graph,
so the embedding is the function itself. -/
def get_subterms (g : HPOGraph) (t : Nat) : List Nat :=
  (reachAux (successors g) (graphFuel g) [t] []).filter (fun x => decide (x ≠ t))

/-- Embedding of `CalculateSimilarity.get_ancestors`: `networkx.ancestors(self.graph,
bottom_term)` plus the term itself (`subterms.add(bottom_term)`), as a set;
memoized in `ancestor_cache`, again a pure function of the graph. -/
def get_ancestors (g : HPOGraph) (t : Nat) : List Nat :=
  reachAux (predecessors g) (graphFuel g) [t] []

/-- The mutable state of one `ICSimilarity` object: the instance
attributes `hpo_counts` and `total_freq` set by
`CalculateSimilarity.__init__`, and the class attributes `counts_cache`
and `ic_cache` declared on `ICSimilarity` itself (class attributes are
shared by every instance of the class; see `newRunState`). -/
structure ICState where
  hpo_counts : List (Nat × Nat)
  total_freq : Nat
  counts_cache : List (Nat × Nat)
  ic_cache : List (Nat × ℝ)

/-- The state of the first `ICSimilarity` ever constructed in a process:
`__init__` sets `hpo_counts = {}` and `total_freq = 0`, and the class
attribute dictionaries are still empty. -/
def initState : ICState := ⟨[], 0, [], []⟩

/-- State of `CalculateSimilarity.__init__` run for a *second* instance in the same
process: the instance attributes `hpo_counts` / `total_freq` are reset,
but `counts_cache` / `ic_cache` are class attributes of `ICSimilarity`,
shared with (and already populated by) the previous instance. -/
def newRunState (prev : ICState) : ICState :=
  { hpo_counts := [], total_freq := 0,
    counts_cache := prev.counts_cache, ic_cache := prev.ic_cache }

/-- Embedding of `CalculateSimilarity.add_hpo`: if the term is not yet a key of
`hpo_counts`, terms missing from the graph are dropped entirely, and a
new key is initialised to zero and incremented; `total_freq` is then
incremented.  Note the source increments the per-term count only inside
the `term not in self.hpo_counts` branch. -/
def add_hpo (g : HPOGraph) (st : ICState) (term : Nat) : ICState :=
  match lookupA st.hpo_counts term with
  | some _ => { st with total_freq := st.total_freq + 1 }
  | none =>
    if g.hasNode term then
      let c0 := setA st.hpo_counts term 0
      let c1 := setA c0 term (lookupD c0 term + 1)
      { st with hpo_counts := c1, total_freq := st.total_freq + 1 }
    else st

/-- Embedding of `CalculateSimilarity.tally_hpo_terms`: `add_hpo` over every child HPO
term of every proband of the population, in order. -/
def tally_hpo_terms (g : HPOGraph) (st : ICState) (population : List (List Nat)) : ICState :=
  population.foldl (fun s terms => terms.foldl (add_hpo g) s) st

/-- The subtree count expression of `ICSimilarity.get_term_count`: the
term's own tally plus the tallies of all its descendants (absent keys
contribute nothing). -/
def countFor (g : HPOGraph) (counts : List (Nat × Nat)) (t : Nat) : Nat :=
  lookupD counts t + ((get_subterms g t).map (lookupD counts)).sum

/-- Embedding of `ICSimilarity.get_term_count`, threading the `counts_cache`: on a
cache miss, a term missing from the graph yields 0 uncached; otherwise the
subtree count is computed and cached. -/
def get_term_count (g : HPOGraph) (st : ICState) (term : Nat) : Nat × ICState :=
  match lookupA st.counts_cache term with
  | some c => (c, st)
  | none =>
    if g.hasNode term then
      let count := countFor g st.hpo_counts term
      (count, { st with counts_cache := setA st.counts_cache term count })
    else (0, st)

/-- Embedding of `ICSimilarity.calculate_information_content`, threading both caches.
On a cache miss, the source first calls `get_term_count`, then returns 0
for a term missing from the graph; otherwise it evaluates
`-math.log(term_count / self.total_freq)` and caches it.  `none` embeds a
raise: `ZeroDivisionError` when `total_freq = 0`, `ValueError` from
`math.log 0` when the subtree count is 0. -/
noncomputable def calculate_information_content (g : HPOGraph) (st : ICState) (term : Nat) :
    Option (ℝ × ICState) :=
  match lookupA st.ic_cache term with
  | some v => some (v, st)
  | none =>
    let tc := get_term_count g st term
    if g.hasNode term then
      if tc.2.total_freq = 0 then none
      else if tc.1 = 0 then none
      else
        let v : ℝ := -Real.log ((tc.1 : ℝ) / (tc.2.total_freq : ℝ))
        some (v, { tc.2 with ic_cache := setA tc.2.ic_cache term v })
    else some (0, tc.2)

/-- Embedding of `CalculateSimilarity.find_common_ancestors`: the empty set when either
term is missing from the graph, otherwise the intersection of the two
ancestor closures (a set in the source; a duplicate-free list here). -/
def find_common_ancestors (g : HPOGraph) (t1 t2 : Nat) : List Nat :=
  if !g.hasNode t1 || !g.hasNode t2 then []
  else (get_ancestors g t1).filter (fun a => (get_ancestors g t2).contains a)

/-- The `for term in ancestors: ic_values.append(...)` loop of
`ICSimilarity.get_max_ic`, threading the caches; `none` propagates a raise
from `calculate_information_content`. -/
noncomputable def icValuesLoop (g : HPOGraph) : List Nat → ICState → Option (List ℝ × ICState)
  | [], st => some ([], st)
  | t :: ts, st =>
    match calculate_information_content g st t with
    | none => none
    | some (v, st1) =>
      match icValuesLoop g ts st1 with
      | none => none
      | some (vs, st2) => some (v :: vs, st2)

/-- Embedding of `ICSimilarity.get_max_ic`: the maximum information content over the
common ancestors.  `max` of an empty Python sequence raises `ValueError`,
embedded as `none`. -/
noncomputable def get_max_ic (g : HPOGraph) (st : ICState) (t1 t2 : Nat) :
    Option (ℝ × ICState) :=
  match icValuesLoop g (find_common_ancestors g t1 t2) st with
  | none => none
  | some (vals, st1) =>
    match vals.max? with
    | none => none
    | some m => some (m, st1)

/-- Embedding of `geomean` from `hpo_similarity.py`: `10 ** (mean of log10 values)`.
`math.log10` raises `ValueError` on a non-positive input, and an empty
list makes the mean a division by zero; both raises are `none`. -/
noncomputable def geomean (values : List ℝ) : Option ℝ :=
  if values.any (fun x => decide (x ≤ 0)) then none
  else if values.length = 0 then none
  else some ((10 : ℝ) ^ ((values.map (fun x => Real.log x / Real.log 10)).sum / (values.length : ℝ)))

/-- The ordered cross product `for term_1 in proband_1: for term_2 in
proband_2` of `get_score_for_pair`. -/
def crossPairs : List Nat → List Nat → List (Nat × Nat)
  | [], _ => []
  | a :: as, p2 => p2.map (fun b => (a, b)) ++ crossPairs as p2

/-- The `ic.append(matcher.get_max_ic(term_1, term_2))` loop of
`get_score_for_pair`, threading the caches. -/
noncomputable def pairMaxLoop (g : HPOGraph) : List (Nat × Nat) → ICState → Option (List ℝ × ICState)
  | [], st => some ([], st)
  | (a, b) :: ps, st =>
    match get_max_ic g st a b with
    | none => none
    | some (v, st1) =>
      match pairMaxLoop g ps st1 with
      | none => none
      | some (vs, st2) => some (v :: vs, st2)

/-- Embedding of `get_score_for_pair` from `hpo_similarity.py`: the geometric mean of
the `get_max_ic` values over all ordered term pairs of the two probands. -/
noncomputable def get_score_for_pair (g : HPOGraph) (st : ICState) (p1 p2 : List Nat) :
    Option (ℝ × ICState) :=
  match pairMaxLoop g (crossPairs p1 p2) st with
  | none => none
  | some (ic, st1) => (geomean ic).map (fun m => (m, st1))

/-- Embedding of `get_proband_similarity` from `hpo_similarity.py`.  For each position,
the proband is scored against every entry of the list with that position
removed (`others = hpo_terms[:]; others.pop(pos)`), and all scores are
summed.  The pair scorer (`get_score_for_pair` applied to the matcher)
enters as the parameter `score`: the matcher's caches memoize pure
functions of the frozen graph and tally table, so they change no score
value, and the pair-enumeration structure under scrutiny is untouched. -/
def get_proband_similarity {α : Type} [AddCommMonoid α]
    (score : List Nat → List Nat → α) (hpo_terms : List (List Nat)) : α :=
  ((List.range hpo_terms.length).map (fun pos =>
    ((hpo_terms.eraseIdx pos).map (fun other => score (hpo_terms.getD pos []) other)).sum)).sum

/-- Embedding of `get_proband_similarity` from `hpo_similarity/get_scores.py`: the loop
`for x in range(n): for y in range(x, n): if x == y: continue`, i.e. each
unordered pair `x < y` scored exactly once, summed. -/
def get_scores_proband_similarity {α : Type} [AddCommMonoid α]
    (score : List Nat → List Nat → α) (probands : List (List Nat)) : α :=
  ((List.range probands.length).map (fun x =>
    (((List.range probands.length).filter (fun y => decide (x < y))).map
      (fun y => score (probands.getD x []) (probands.getD y []))).sum)).sum

/-- Embedding of `[family_hpo[x].get_child_hpo() for x in probands if x in family_hpo]`:
the term sets of the listed probands that exist in the population. -/
def hpo_terms_of (family_hpo : List (Nat × List Nat)) (probands : List Nat) : List (List Nat) :=
  probands.filterMap (fun x => lookupA family_hpo x)

/-- Embedding of `[x for x in family_hpo if x not in probands]`: the candidate pool for
the permutation test (iterating a dict iterates its keys). -/
def other_probands_of (family_hpo : List (Nat × List Nat)) (probands : List Nat) : List Nat :=
  (family_hpo.map Prod.fst).filter (fun x => !probands.contains x)

/-- Embedding of `random.sample(pool, k)`: `k` draws without replacement, embedded with
an index-choice oracle `pickFn` (position `j` of the random stream picks
element `pickFn j % remaining` of the remaining pool).  `random.sample`
raises `ValueError` when `k` exceeds the pool size: `none`. -/
def randomSample (pickFn : Nat → Nat) : Nat → List Nat → Nat → Option (List Nat)
  | _, _, 0 => some []
  | j, pool, k + 1 =>
    if pool.length = 0 then none
    else
      (randomSample pickFn (j + 1) (pool.eraseIdx (pickFn j % pool.length)) k).map
        (fun rest => pool.getD (pickFn j % pool.length) 0 :: rest)

/-- The `for x in range(n_sims)` simulation loop of `test_similarity`:
iteration `i` draws `random.sample(other_probands, k)` with its own slice
`pick i` of the random stream; any raise aborts the run (`none`). -/
def drawsLoop (pick : Nat → Nat → Nat) (pool : List Nat) (k : Nat) : Nat → Nat → Option (List (List Nat))
  | _, 0 => some []
  | i, m + 1 =>
    match randomSample (pick i) 0 pool k with
    | none => none
    | some d => (drawsLoop pick pool k (i + 1) m).map (fun ds => d :: ds)

/-- All `n_sims` samples drawn by `test_similarity`, in iteration order. -/
def sim_draws (pick : Nat → Nat → Nat) (pool : List Nat) (k n_sims : Nat) :
    Option (List (List Nat)) :=
  drawsLoop pick pool k 0 n_sims

/-- One step of Python's stable ascending `sorted`. -/
def insertSorted {α : Type} [LinearOrder α] (x : α) : List α → List α
  | [] => [x]
  | y :: ys => if x ≤ y then x :: y :: ys else y :: insertSorted x ys

/-- Embedding of `sorted(distribution)`: ascending sort (insertion sort; only the
multiset of elements matters below). -/
def pySorted {α : Type} [LinearOrder α] : List α → List α
  | [] => []
  | x :: xs => insertSorted x (pySorted xs)

/-- Embedding of `bisect.bisect_left(distribution, observed)`: for a sorted list, the
Python library's left-biased binary search returns the number of elements
strictly less than `observed` (ties insert before equal values); the
library function is embedded by that specification. -/
def bisect_left {α : Type} [LinearOrder α] (l : List α) (x : α) : Nat :=
  l.countP (fun y => decide (y < x))

/-- Embedding of `sim_prob = (abs(pos - len(distribution))) / (1 + len(distribution))`:
the final p-value arithmetic of `test_similarity` (integer subtraction,
absolute value, then true division). -/
def sim_p (pos n : Nat) : ℚ := (((pos : Int) - (n : Int)).natAbs : ℚ) / (1 + (n : ℚ))

/-- Embedding of `test_similarity` from `hpo_similarity.py`.  The group scorer
(`get_proband_similarity` applied to the matcher) enters as the parameter
`score`, and `random.sample` as the oracle `pick`, as above; the control
flow, pool construction, sample sizing, sorting and p-value arithmetic are
the source's, with the source's local variables (`hpo_terms`, `observed`,
`distribution`, `pos`) inlined through the definitions above.
`Except.error ()` embeds a raise escaping the function (`random.sample` on
an oversized request); `Except.ok none` embeds the explicit `return None`.
The probands of a sampled draw are all population keys, so indexing
`family_hpo[n]` never raises and equals the lookup here. -/
def test_similarity {α : Type} [LinearOrder α] (score : List (List Nat) → α)
    (pick : Nat → Nat → Nat) (family_hpo : List (Nat × List Nat))
    (probands : List Nat) (n_sims : Nat) : Except Unit (Option ℚ) :=
  if (hpo_terms_of family_hpo probands).length = 1 then Except.ok none
  else
    match sim_draws pick (other_probands_of family_hpo probands) probands.length n_sims with
    | none => Except.error ()
    | some draws =>
      Except.ok (some (sim_p
        (bisect_left (pySorted (draws.map (fun sampled => score (hpo_terms_of family_hpo sampled))))
          (score (hpo_terms_of family_hpo probands)))
        (pySorted (draws.map (fun sampled => score (hpo_terms_of family_hpo sampled)))).length))

/-- The specification's information content, `§4.1` of the spec: a pure
function of the ontology graph and the frequency table alone —
`-log(termCount(term) / totalCount)`, 0 for a term absent from the graph,
undefined (`none`) on a zero total or zero subtree count.  Stated
separately from `calculate_information_content` to compare the cached
implementation against the spec's pure-function contract. -/
noncomputable def informationContent_spec (g : HPOGraph) (counts : List (Nat × Nat))
    (total : Nat) (t : Nat) : Option ℝ :=
  if g.hasNode t then
    if total = 0 then none
    else if countFor g counts t = 0 then none
    else some (-Real.log ((countFor g counts t : ℝ) / (total : ℝ)))
  else some 0

/-- Shape of the matcher state during and after the build phase: the
tally keys are distinct, every per-term tally equals 1 (`add_hpo` never
increments an existing key — the defect recorded under C1), there are no
more tally keys than tally calls, and the query caches are untouched. -/
def TallyWF (st : ICState) : Prop :=
  (st.hpo_counts.map Prod.fst).Nodup ∧ (∀ p ∈ st.hpo_counts, p.2 = 1) ∧
  st.hpo_counts.length ≤ st.total_freq ∧ st.counts_cache = [] ∧ st.ic_cache = []

/-- Fixture: a graph with the single node 1. -/
def gOne : HPOGraph := ⟨[1], []⟩

/-- Fixture: root 1 with one child 2. -/
def gChain : HPOGraph := ⟨[1, 2], [(1, 2)]⟩

/-- Fixture: root 1 with two children 2 and 3. -/
def gFork : HPOGraph := ⟨[1, 2, 3], [(1, 2), (1, 3)]⟩

/-- Results of `test_similarity` are compared decidably in the concrete
evaluations below. -/
instance {ε α : Type} [DecidableEq ε] [DecidableEq α] : DecidableEq (Except ε α) := fun a b =>
  match a, b with
  | .error e, .error f =>
    if h : e = f then isTrue (by rw [h]) else isFalse (fun hh => by cases hh; exact h rfl)
  | .ok x, .ok y =>
    if h : x = y then isTrue (by rw [h]) else isFalse (fun hh => by cases hh; exact h rfl)
  | .error _, .ok _ => isFalse (fun hh => by cases hh)
  | .ok _, .error _ => isFalse (fun hh => by cases hh)

/-- The state a first analysis run leaves behind: tallying `[[1]]` over
the one-node graph and querying the information content of term 1 caches
the subtree count 1 and the IC value `-log(1/1)` in the class-attribute
dictionaries. -/
noncomputable def run1_final : ICState :=
  { hpo_counts := [(1, 1)], total_freq := 1, counts_cache := [(1, 1)],
    ic_cache := [(1, -Real.log (((1 : ℕ) : ℝ) / ((1 : ℕ) : ℝ)))] }

/-- The matcher state after scoring the pair ([2], [3]) over `gFork`
tallied with `[[2], [3]]`: the root's subtree count 2 and its information
content `-log(2/2)` are now cached. -/
noncomputable def pairState : ICState :=
  { hpo_counts := [(2, 1), (3, 1)], total_freq := 2, counts_cache := [(1, 2)],
    ic_cache := [(1, -Real.log (((2 : ℕ) : ℝ) / ((2 : ℕ) : ℝ)))] }

/-- Unfolding a successful `test_similarity` run: when the collected group
does not have size one and every simulated draw succeeds, the result is
`sim_p` of the insertion position and the distribution length. -/
theorem test_similarity_run {α : Type} [LinearOrder α] (score : List (List Nat) → α)
    (pick : Nat → Nat → Nat) (family_hpo : List (Nat × List Nat)) (probands : List Nat)
    (n_sims : Nat) (draws : List (List Nat))
    (hlen : (hpo_terms_of family_hpo probands).length ≠ 1)
    (hdr : sim_draws pick (other_probands_of family_hpo probands) probands.length n_sims
      = some draws) :
    test_similarity score pick family_hpo probands n_sims = Except.ok (some (sim_p
      (bisect_left (pySorted (draws.map (fun sampled => score (hpo_terms_of family_hpo sampled))))
        (score (hpo_terms_of family_hpo probands)))
      (pySorted (draws.map (fun sampled => score (hpo_terms_of family_hpo sampled)))).length)) := by
  unfold test_similarity
  rw [if_neg hlen, hdr]

/-- Inversion of a `test_similarity` run that produced a p-value: the
size-one guard did not fire and the simulated draws all succeeded. -/
theorem test_similarity_ok_inv {α : Type} [LinearOrder α] (score : List (List Nat) → α)
    (pick : Nat → Nat → Nat) (family_hpo : List (Nat × List Nat)) (probands : List Nat)
    (n_sims : Nat) (p : ℚ)
    (hok : test_similarity score pick family_hpo probands n_sims = Except.ok (some p)) :
    (hpo_terms_of family_hpo probands).length ≠ 1 ∧
    ∃ draws, sim_draws pick (other_probands_of family_hpo probands) probands.length n_sims
      = some draws := by
  unfold test_similarity at hok
  by_cases h : (hpo_terms_of family_hpo probands).length = 1
  · rw [if_pos h] at hok
    simp at hok
  · rw [if_neg h] at hok
    refine ⟨h, ?_⟩
    cases hd : sim_draws pick (other_probands_of family_hpo probands) probands.length n_sims with
    | none => rw [hd] at hok; simp at hok
    | some draws => exact ⟨draws, rfl⟩

/-- C1: the claim fails on the code.  `add_hpo` on an in-graph term
increments both counters on the term's *first* occurrence and leaves the
per-term count untouched on every repeat (the increment sits inside the
`term not in self.hpo_counts` branch), so after two calls with term 1 the
total is 2 while the per-term tallies sum to 1; a call on an absent term
changes nothing, as claimed. -/
theorem add_hpo_repeat_drops_term_increment :
    (add_hpo gOne initState 1).hpo_counts = [(1, 1)] ∧
    (add_hpo gOne initState 1).total_freq = 1 ∧
    (add_hpo gOne (add_hpo gOne initState 1) 1).hpo_counts = [(1, 1)] ∧
    (add_hpo gOne (add_hpo gOne initState 1) 1).total_freq = 2 ∧
    ((add_hpo gOne (add_hpo gOne initState 1) 1).hpo_counts.map Prod.snd).sum ≠
      (add_hpo gOne (add_hpo gOne initState 1) 1).total_freq ∧
    add_hpo gOne initState 9 = initState :=
  ⟨rfl, rfl, rfl, rfl, by decide, rfl⟩

/-- C6: the claim fails on the code.  With a constant pair scorer worth 1,
three probands have three unordered pairs, yet `get_proband_similarity`
of `hpo_similarity.py` returns 6 — it iterates ordered pairs, scoring
each unordered pair twice — while the `get_scores.py` variant (and the
repository's own unit test value) gives each unordered pair exactly
once. -/
theorem get_proband_similarity_double_counts_pairs :
    get_proband_similarity (fun _ _ => (1 : ℕ)) [[1], [2], [3]] = 6 ∧
    get_scores_proband_similarity (fun _ _ => (1 : ℕ)) [[1], [2], [3]] = 3 :=
  ⟨by decide, by decide⟩

/-- C2: the claim fails on the code.  Tallying every occurrence of the
population `[[2], [2]]` over the graph 1→2 leaves the root's subtree
count at 1 (the repeat raised only `total_freq`, to 2 — the `add_hpo`
defect), so the root's information content is `-log(1/2) = log 2 > 0`,
not 0. -/
theorem ic_root_nonzero_after_repeat_tally :
    (calculate_information_content gChain (tally_hpo_terms gChain initState [[2], [2]]) 1).map
      Prod.fst = some (Real.log 2) ∧ Real.log 2 ≠ 0 := by
  constructor
  · have h : (calculate_information_content gChain
        (tally_hpo_terms gChain initState [[2], [2]]) 1).map Prod.fst
        = some (-Real.log (((1 : ℕ) : ℝ) / ((2 : ℕ) : ℝ))) := rfl
    rw [h, Option.some.injEq]
    push_cast
    rw [one_div, Real.log_inv, neg_neg]
  · exact ne_of_gt (Real.log_pos (by norm_num))

/-- C10: the claim fails on the code.  `counts_cache` and `ic_cache` are
*class* attributes of `ICSimilarity`, so a second instance built for a
second run (different frequency table: term 1 now tallied twice, total 2)
still sees the first run's caches and returns the first run's value 0 for
term 1, while the spec's pure function of the second run's graph and
table gives `log 2 ≠ 0`. -/
theorem ic_cache_shared_across_runs :
    calculate_information_content gOne (tally_hpo_terms gOne initState [[1]]) 1
      = some (-Real.log (((1 : ℕ) : ℝ) / ((1 : ℕ) : ℝ)), run1_final) ∧
    (calculate_information_content gOne
        (tally_hpo_terms gOne (newRunState run1_final) [[1], [1]]) 1).map Prod.fst
      = some (-Real.log (((1 : ℕ) : ℝ) / ((1 : ℕ) : ℝ))) ∧
    -Real.log (((1 : ℕ) : ℝ) / ((1 : ℕ) : ℝ)) = 0 ∧
    informationContent_spec gOne
        (tally_hpo_terms gOne (newRunState run1_final) [[1], [1]]).hpo_counts
        (tally_hpo_terms gOne (newRunState run1_final) [[1], [1]]).total_freq 1
      = some (Real.log 2) ∧
    Real.log 2 ≠ 0 := by
  refine ⟨rfl, rfl, by simp, ?_, ne_of_gt (Real.log_pos (by norm_num))⟩
  have h : informationContent_spec gOne
      (tally_hpo_terms gOne (newRunState run1_final) [[1], [1]]).hpo_counts
      (tally_hpo_terms gOne (newRunState run1_final) [[1], [1]]).total_freq 1
      = some (-Real.log (((1 : ℕ) : ℝ) / ((2 : ℕ) : ℝ))) := rfl
  rw [h, Option.some.injEq]
  push_cast
  rw [one_div, Real.log_inv, neg_neg]

/-- C5 counterexample: the claim's "maxIC of a pair containing an absent
term does not raise" is false.  Term 9 is not in the graph, the common
ancestor set is therefore empty, and `max(ic_values)` on an empty list
raises `ValueError` (embedded `none`). -/
theorem get_max_ic_absent_term_raises :
    get_max_ic gChain initState 9 2 = none := rfl

/-- C5 amended: for a term absent from the graph (and, as in any single
run, never cached), `calculate_information_content` returns 0 without
touching the state and `find_common_ancestors` of any pair containing it
returns the empty set — but `get_max_ic` of such a pair *raises*
(`max` of an empty sequence) instead of degrading silently. -/
theorem absent_term_degradation_amended (g : HPOGraph) (st : ICState) (t1 t2 : Nat)
    (habs : g.hasNode t1 = false) (hic : lookupA st.ic_cache t1 = none) :
    calculate_information_content g st t1 = some (0, st) ∧
    find_common_ancestors g t1 t2 = [] ∧
    get_max_ic g st t1 t2 = none := by
  have hfc : find_common_ancestors g t1 t2 = [] := by
    unfold find_common_ancestors
    rw [habs]
    simp
  have hst : (get_term_count g st t1).2 = st := by
    unfold get_term_count
    cases hcc : lookupA st.counts_cache t1 <;> simp [habs]
  refine ⟨?_, hfc, ?_⟩
  · unfold calculate_information_content
    rw [hic]
    simp [habs, hst]
  · unfold get_max_ic
    rw [hfc]
    simp [icValuesLoop]

/-- C5 witness: the amended statement at the concrete absent term 9. -/
theorem absent_term_degradation_witness :
    gChain.hasNode 9 = false ∧
    (calculate_information_content gChain initState 9 = some (0, initState) ∧
     find_common_ancestors gChain 9 2 = [] ∧
     get_max_ic gChain initState 9 2 = none) :=
  ⟨by decide, absent_term_degradation_amended gChain initState 9 2 (by decide) rfl⟩

/-- C7: the claim fails on the code.  For probands `[2]` and `[3]` over
the root-with-two-children graph (each term tallied once), the only
common ancestor is the root, whose information content is
`-log(2/2) = 0`; `geomean` then evaluates `math.log10(0)` and raises
(`none`) — no floor value, no exclusion of the zero-IC pairing. -/
theorem get_score_for_pair_zero_ic_raises :
    get_score_for_pair gFork (tally_hpo_terms gFork initState [[2], [3]]) [2] [3] = none := by
  have h : get_score_for_pair gFork (tally_hpo_terms gFork initState [[2], [3]]) [2] [3]
      = (geomean [-Real.log (((2 : ℕ) : ℝ) / ((2 : ℕ) : ℝ))]).map (fun m => (m, pairState)) := rfl
  have hv : -Real.log (((2 : ℕ) : ℝ) / ((2 : ℕ) : ℝ)) = 0 := by
    push_cast
    have h22 : ((2 : ℝ) / 2) = 1 := by norm_num
    rw [h22, Real.log_one, neg_zero]
  have hc : ([(0 : ℝ)].any (fun x => decide (x ≤ 0))) = true := by simp
  have hg : geomean [(0 : ℝ)] = none := by
    unfold geomean
    rw [if_pos hc]
  rw [h, hv, hg]
  rfl

/-- C4 counterexample: with *zero* of the observed identifiers present in
the population (probands 1 and 2 versus keys 11, 12, 13), the test does
not signal "not computable": the guard checks `len(hpo_terms) == 1` only,
so the code scores the empty group, runs the full simulation, and returns
the p-value 2/3. -/
theorem test_similarity_zero_probands_returns_p_value :
    (hpo_terms_of [(11, [1]), (12, [1]), (13, [1])] [1, 2]).length = 0 ∧
    test_similarity (fun l => l.length) (fun _ _ => 0)
      [(11, [1]), (12, [1]), (13, [1])] [1, 2] 2 = Except.ok (some (2 / 3)) := by
  refine ⟨rfl, ?_⟩
  have h := test_similarity_run (fun l => l.length) (fun _ _ => 0)
    [(11, [1]), (12, [1]), (13, [1])] [1, 2] 2 [[11, 12], [11, 12]] (by decide) (by decide)
  rw [h]
  have hb : bisect_left (pySorted (List.map
        (fun sampled => (fun l => l.length) (hpo_terms_of [(11, [1]), (12, [1]), (13, [1])] sampled))
        [[11, 12], [11, 12]]))
      ((fun l => l.length) (hpo_terms_of [(11, [1]), (12, [1]), (13, [1])] [1, 2])) = 0 := by decide
  have hl : (pySorted (List.map
        (fun sampled => (fun l => l.length) (hpo_terms_of [(11, [1]), (12, [1]), (13, [1])] sampled))
        [[11, 12], [11, 12]])).length = 2 := by decide
  rw [hb, hl]
  norm_num [sim_p]

/-- C4 amended: the test signals "not computable" (returns `None`,
attempting neither scoring nor simulation, for any scorer and any random
stream) exactly in the source's guard case — *exactly one* of the
observed identifiers has a term set in the population; with zero present
it proceeds and produces a p-value. -/
theorem test_similarity_single_proband_returns_none {α : Type} [LinearOrder α]
    (score : List (List Nat) → α) (pick : Nat → Nat → Nat)
    (family_hpo : List (Nat × List Nat)) (probands : List Nat) (n_sims : Nat)
    (h1 : (hpo_terms_of family_hpo probands).length = 1) :
    test_similarity score pick family_hpo probands n_sims = Except.ok none := by
  simp [test_similarity, h1]

/-- C4 witness: proband 11 is the only listed identifier present, so the
test returns `None`. -/
theorem test_similarity_single_proband_witness :
    (hpo_terms_of [(11, [1]), (12, [1]), (13, [1])] [11, 99]).length = 1 ∧
    test_similarity (fun l => l.length) (fun _ _ => 0)
      [(11, [1]), (12, [1]), (13, [1])] [11, 99] 5 = Except.ok none :=
  ⟨rfl, test_similarity_single_proband_returns_none _ _ _ _ _ rfl⟩

/-- Inserting into a sorted list permutes consing. -/
theorem insertSorted_perm {α : Type} [LinearOrder α] (x : α) (l : List α) :
    (insertSorted x l).Perm (x :: l) := by
  induction l with
  | nil => exact List.Perm.refl _
  | cons y ys ih =>
    unfold insertSorted
    by_cases h : x ≤ y
    · rw [if_pos h]
    · rw [if_neg h]
      exact (ih.cons y).trans (List.Perm.swap x y ys)

/-- Sorting yields a permutation of the input list. -/
theorem pySorted_perm {α : Type} [LinearOrder α] (l : List α) : (pySorted l).Perm l := by
  induction l with
  | nil => exact List.Perm.refl _
  | cons x xs ih => exact (insertSorted_perm x (pySorted xs)).trans (ih.cons x)

/-- Sorting preserves length. -/
theorem pySorted_length {α : Type} [LinearOrder α] (l : List α) :
    (pySorted l).length = l.length := (pySorted_perm l).length_eq

/-- The insertion position never exceeds the list length. -/
theorem bisect_left_le {α : Type} [LinearOrder α] (l : List α) (x : α) :
    bisect_left l x ≤ l.length := List.countP_le_length _

/-- A completed simulation loop produced exactly one score per iteration. -/
theorem drawsLoop_length (pick : Nat → Nat → Nat) (pool : List Nat) (k : Nat) :
    ∀ (m i : Nat) (ds : List (List Nat)), drawsLoop pick pool k i m = some ds → ds.length = m
  | 0, i, ds, h => by
    unfold drawsLoop at h
    simp only [Option.some.injEq] at h
    rw [← h]
    rfl
  | m + 1, i, ds, h => by
    unfold drawsLoop at h
    cases hr : randomSample (pick i) 0 pool k with
    | none => rw [hr] at h; exact absurd h (by simp)
    | some d =>
      rw [hr] at h
      cases hd : drawsLoop pick pool k (i + 1) m with
      | none => rw [hd] at h; exact absurd h (by simp)
      | some ds1 =>
        rw [hd] at h
        simp only [Option.map_some', Option.some.injEq] at h
        rw [← h]
        simp [drawsLoop_length pick pool k m (i + 1) ds1 hd]

/-- Every draw of a completed simulation loop is a successful
`random.sample` from the pool. -/
theorem drawsLoop_mem (pick : Nat → Nat → Nat) (pool : List Nat) (k : Nat) :
    ∀ (m i : Nat) (ds : List (List Nat)), drawsLoop pick pool k i m = some ds →
      ∀ d ∈ ds, ∃ j, randomSample (pick j) 0 pool k = some d
  | 0, i, ds, h => by
    unfold drawsLoop at h
    simp only [Option.some.injEq] at h
    rw [← h]
    intro d hd
    exact absurd hd (by simp)
  | m + 1, i, ds, h => by
    unfold drawsLoop at h
    cases hr : randomSample (pick i) 0 pool k with
    | none => rw [hr] at h; exact absurd h (by simp)
    | some d0 =>
      rw [hr] at h
      cases hd : drawsLoop pick pool k (i + 1) m with
      | none => rw [hd] at h; exact absurd h (by simp)
      | some ds1 =>
        rw [hd] at h
        simp only [Option.map_some', Option.some.injEq] at h
        rw [← h]
        intro d hdm
        rcases List.mem_cons.mp hdm with h1 | h1
        · exact ⟨i, by rw [hr, h1]⟩
        · exact drawsLoop_mem pick pool k m (i + 1) ds1 hd d h1

/-- C3: on every completed run (`n_sims ≥ 1` simulations all drawn), the
returned p-value is `(n_sims - pos) / (n_sims + 1)` where `pos` is the
left-biased insertion position — the number of simulated scores strictly
below the observed score — of the observed group score in the ascending
sorted distribution, and that value lies in `[0, n_sims/(n_sims+1)]`. -/
theorem test_similarity_p_value_formula_and_range {α : Type} [LinearOrder α]
    (score : List (List Nat) → α) (pick : Nat → Nat → Nat)
    (family_hpo : List (Nat × List Nat)) (probands : List Nat) (n_sims : Nat)
    (draws : List (List Nat)) (hsims : 1 ≤ n_sims)
    (hlen : (hpo_terms_of family_hpo probands).length ≠ 1)
    (hdr : sim_draws pick (other_probands_of family_hpo probands) probands.length n_sims
      = some draws) :
    test_similarity score pick family_hpo probands n_sims = Except.ok (some
      (((n_sims - bisect_left (pySorted (draws.map (fun sampled =>
          score (hpo_terms_of family_hpo sampled))))
          (score (hpo_terms_of family_hpo probands)) : ℕ) : ℚ) / ((n_sims : ℚ) + 1))) ∧
    (0 : ℚ) ≤ ((n_sims - bisect_left (pySorted (draws.map (fun sampled =>
        score (hpo_terms_of family_hpo sampled))))
        (score (hpo_terms_of family_hpo probands)) : ℕ) : ℚ) / ((n_sims : ℚ) + 1) ∧
    ((n_sims - bisect_left (pySorted (draws.map (fun sampled =>
        score (hpo_terms_of family_hpo sampled))))
        (score (hpo_terms_of family_hpo probands)) : ℕ) : ℚ) / ((n_sims : ℚ) + 1)
      ≤ (n_sims : ℚ) / ((n_sims : ℚ) + 1) := by
  have hrun := test_similarity_run score pick family_hpo probands n_sims draws hlen hdr
  have hlen2 : (pySorted (draws.map (fun sampled =>
      score (hpo_terms_of family_hpo sampled)))).length = n_sims := by
    rw [pySorted_length, List.length_map]
    exact drawsLoop_length pick _ _ n_sims 0 draws hdr
  have hple : bisect_left (pySorted (draws.map (fun sampled =>
      score (hpo_terms_of family_hpo sampled))))
      (score (hpo_terms_of family_hpo probands)) ≤ n_sims := by
    rw [← hlen2]
    exact bisect_left_le _ _
  have habs : sim_p (bisect_left (pySorted (draws.map (fun sampled =>
      score (hpo_terms_of family_hpo sampled))))
      (score (hpo_terms_of family_hpo probands)))
      (pySorted (draws.map (fun sampled => score (hpo_terms_of family_hpo sampled)))).length
      = ((n_sims - bisect_left (pySorted (draws.map (fun sampled =>
          score (hpo_terms_of family_hpo sampled))))
          (score (hpo_terms_of family_hpo probands)) : ℕ) : ℚ) / ((n_sims : ℚ) + 1) := by
    rw [hlen2]
    unfold sim_p
    have h2 : (((bisect_left (pySorted (draws.map (fun sampled =>
        score (hpo_terms_of family_hpo sampled))))
        (score (hpo_terms_of family_hpo probands)) : ℕ) : Int) - (n_sims : Int)).natAbs
        = n_sims - bisect_left (pySorted (draws.map (fun sampled =>
          score (hpo_terms_of family_hpo sampled))))
          (score (hpo_terms_of family_hpo probands)) := by
      omega
    rw [h2, add_comm (1 : ℚ) (n_sims : ℚ)]
  refine ⟨?_, ?_, ?_⟩
  · rw [hrun, habs]
  · positivity
  · gcongr
    exact_mod_cast Nat.sub_le n_sims _

/-- C3 witness: a complete concrete run (population of four, two observed
probands, two simulations); the insertion position is 0, so the p-value is
`(2 - 0) / (2 + 1) = 2/3`. -/
theorem test_similarity_p_value_witness :
    test_similarity (fun l : List (List Nat) => l.length) (fun _ _ => 0)
      [(1, [10]), (2, [20]), (3, [30]), (4, [40])] [1, 2] 2 = Except.ok (some (2 / 3)) := by
  have h := test_similarity_p_value_formula_and_range (fun l => l.length) (fun _ _ => 0)
    [(1, [10]), (2, [20]), (3, [30]), (4, [40])] [1, 2] 2 [[3, 4], [3, 4]]
    (by norm_num) (by decide) (by decide)
  rw [h.1]
  have hb : bisect_left (pySorted (List.map (fun sampled =>
      (fun l : List (List Nat) => l.length) (hpo_terms_of [(1, [10]), (2, [20]), (3, [30]), (4, [40])] sampled))
      [[3, 4], [3, 4]]))
      ((fun l : List (List Nat) => l.length) (hpo_terms_of [(1, [10]), (2, [20]), (3, [30]), (4, [40])] [1, 2])) = 0 := by
    decide
  rw [hb]
  norm_num

/-- In a duplicate-free list, the element at an index does not survive the
removal of that index. -/
theorem getD_not_mem_eraseIdx :
    ∀ (l : List Nat) (i : Nat), i < l.length → l.Nodup → l.getD i 0 ∉ l.eraseIdx i
  | a :: t, 0, _, hnd => by
    rw [List.getD_cons_zero, List.eraseIdx_cons_zero]
    exact (List.nodup_cons.mp hnd).1
  | a :: t, i + 1, h, hnd => by
    rw [List.getD_cons_succ, List.eraseIdx_cons_succ]
    have hit : i < t.length := by simpa using Nat.lt_of_succ_lt_succ h
    intro hmem
    rcases List.mem_cons.mp hmem with h1 | h1
    · have hm : t.getD i 0 ∈ t := by
        rw [List.getD_eq_getElem t 0 hit]
        exact List.getElem_mem hit
      exact (List.nodup_cons.mp hnd).1 (h1 ▸ hm)
    · exact getD_not_mem_eraseIdx t i hit (List.nodup_cons.mp hnd).2 h1

/-- A successful `random.sample(pool, k)` is a draw without replacement:
`k` elements, all from the pool, with no element drawn twice. -/
theorem randomSample_spec (pickFn : Nat → Nat) :
    ∀ (k j : Nat) (pool out : List Nat), randomSample pickFn j pool k = some out →
      out.length = k ∧ (∀ x ∈ out, x ∈ pool) ∧ (pool.Nodup → out.Nodup)
  | 0, j, pool, out, h => by
    unfold randomSample at h
    simp only [Option.some.injEq] at h
    rw [← h]
    exact ⟨rfl, by simp, fun _ => List.nodup_nil⟩
  | k + 1, j, pool, out, h => by
    unfold randomSample at h
    by_cases hp : pool.length = 0
    · rw [if_pos hp] at h
      exact absurd h (by simp)
    · rw [if_neg hp] at h
      have hi : pickFn j % pool.length < pool.length :=
        Nat.mod_lt _ (Nat.pos_of_ne_zero hp)
      cases hr : randomSample pickFn (j + 1) (pool.eraseIdx (pickFn j % pool.length)) k with
      | none => rw [hr] at h; exact absurd h (by simp)
      | some rest =>
        rw [hr] at h
        simp only [Option.map_some', Option.some.injEq] at h
        obtain ⟨hlen1, hmem1, hnd1⟩ :=
          randomSample_spec pickFn k (j + 1) (pool.eraseIdx (pickFn j % pool.length)) rest hr
        rw [← h]
        refine ⟨by simp [hlen1], ?_, ?_⟩
        · intro x hx
          rcases List.mem_cons.mp hx with h1 | h1
          · rw [h1, List.getD_eq_getElem pool 0 hi]
            exact List.getElem_mem hi
          · exact (List.eraseIdx_sublist pool _).subset (hmem1 x h1)
        · intro hnd
          rw [List.nodup_cons]
          exact ⟨fun hmem => getD_not_mem_eraseIdx pool _ hi hnd (hmem1 _ hmem),
            hnd1 (List.Nodup.sublist (List.eraseIdx_sublist pool _) hnd)⟩

/-- C8 counterexample: the claim's "sample size equals the number of
observed term sets actually collected" is false.  With observed
identifiers `[1, 2, 9]` of which only 1 and 2 are in the population, the
collected group has size 2, yet each simulated draw has
`len(probands) = 3` elements. -/
theorem sim_draws_size_mismatch :
    (hpo_terms_of [(1, [10]), (2, [20]), (3, [30]), (4, [40]), (5, [50])] [1, 2, 9]).length = 2 ∧
    sim_draws (fun _ _ => 0)
      (other_probands_of [(1, [10]), (2, [20]), (3, [30]), (4, [40]), (5, [50])] [1, 2, 9])
      ([1, 2, 9].length) 1 = some [[3, 4, 5]] ∧
    ∀ d ∈ [[3, 4, 5]], d.length ≠ 2 :=
  ⟨rfl, by decide, by decide⟩

/-- C8 amended: every run of `test_similarity` that returns a p-value drew
`n_sims` samples, each without replacement (no duplicates when the pool
has none, all elements from the pool) from the candidate pool of
non-observed population probands — but each of size `len(probands)`, the
number of observed *identifiers*, not the number of term sets actually
collected. -/
theorem test_similarity_draw_properties_amended {α : Type} [LinearOrder α]
    (score : List (List Nat) → α) (pick : Nat → Nat → Nat)
    (family_hpo : List (Nat × List Nat)) (probands : List Nat) (n_sims : Nat) (p : ℚ)
    (hok : test_similarity score pick family_hpo probands n_sims = Except.ok (some p)) :
    ∃ draws, sim_draws pick (other_probands_of family_hpo probands) probands.length n_sims
        = some draws ∧ draws.length = n_sims ∧
      ∀ d ∈ draws, d.length = probands.length ∧
        (∀ x ∈ d, x ∈ other_probands_of family_hpo probands) ∧
        ((other_probands_of family_hpo probands).Nodup → d.Nodup) := by
  obtain ⟨hlen, draws, hdr⟩ := test_similarity_ok_inv score pick family_hpo probands n_sims p hok
  refine ⟨draws, hdr, drawsLoop_length pick _ _ n_sims 0 draws hdr, ?_⟩
  intro d hd
  obtain ⟨j, hj⟩ := drawsLoop_mem pick _ _ n_sims 0 draws hdr d hd
  exact randomSample_spec (pick j) probands.length 0 _ d hj

/-- C8 witness: the amended statement at the run whose draws were shown in
the counterexample (p-value 1/2; one draw, of size 3, from the pool
`[3, 4, 5]`). -/
theorem test_similarity_draw_properties_witness :
    ∃ draws, sim_draws (fun _ _ => 0)
        (other_probands_of [(1, [10]), (2, [20]), (3, [30]), (4, [40]), (5, [50])] [1, 2, 9])
        ([1, 2, 9].length) 1 = some draws ∧ draws.length = 1 ∧
      ∀ d ∈ draws, d.length = [1, 2, 9].length ∧
        (∀ x ∈ d, x ∈ other_probands_of [(1, [10]), (2, [20]), (3, [30]), (4, [40]), (5, [50])]
          [1, 2, 9]) ∧
        ((other_probands_of [(1, [10]), (2, [20]), (3, [30]), (4, [40]), (5, [50])]
          [1, 2, 9]).Nodup → d.Nodup) := by
  refine test_similarity_draw_properties_amended (fun l : List (List Nat) => l.length)
    (fun _ _ => 0) [(1, [10]), (2, [20]), (3, [30]), (4, [40]), (5, [50])] [1, 2, 9] 1 (1 / 2) ?_
  have h := test_similarity_run (fun l : List (List Nat) => l.length) (fun _ _ => 0)
    [(1, [10]), (2, [20]), (3, [30]), (4, [40]), (5, [50])] [1, 2, 9] 1 [[3, 4, 5]]
    (by decide) (by decide)
  rw [h]
  have hb : bisect_left (pySorted (List.map (fun sampled =>
      (fun l : List (List Nat) => l.length)
        (hpo_terms_of [(1, [10]), (2, [20]), (3, [30]), (4, [40]), (5, [50])] sampled))
      [[3, 4, 5]]))
      ((fun l : List (List Nat) => l.length)
        (hpo_terms_of [(1, [10]), (2, [20]), (3, [30]), (4, [40]), (5, [50])] [1, 2, 9])) = 0 := by
    decide
  have hl : (pySorted (List.map (fun sampled =>
      (fun l : List (List Nat) => l.length)
        (hpo_terms_of [(1, [10]), (2, [20]), (3, [30]), (4, [40]), (5, [50])] sampled))
      [[3, 4, 5]])).length = 1 := by decide
  rw [hb, hl]
  norm_num [sim_p]

/-- A key misses the association list iff it is none of the keys. -/
theorem lookupA_eq_none_iff {β : Type} :
    ∀ (l : List (Nat × β)) (k : Nat), lookupA l k = none ↔ k ∉ l.map Prod.fst
  | [], k => by simp [lookupA]
  | (k0, v) :: t, k => by
    unfold lookupA
    by_cases h : k0 = k
    · rw [if_pos h]
      simp [h]
    · rw [if_neg h]
      have ih := lookupA_eq_none_iff t k
      simp only [List.map_cons, List.mem_cons]
      constructor
      · intro hn hor
        rcases hor with h1 | h1
        · exact h h1.symm
        · exact (ih.mp hn) h1
      · intro hn
        exact ih.mpr (fun h1 => hn (Or.inr h1))

/-- A successful lookup returns an entry of the list. -/
theorem lookupA_mem {β : Type} :
    ∀ (l : List (Nat × β)) (k : Nat) (v : β), lookupA l k = some v → (k, v) ∈ l
  | [], k, v => by simp [lookupA]
  | (k0, w) :: t, k, v => by
    unfold lookupA
    by_cases h : k0 = k
    · rw [if_pos h]
      intro hh
      simp only [Option.some.injEq] at hh
      subst h
      subst hh
      exact List.mem_cons_self _ _
    · rw [if_neg h]
      intro hh
      exact List.mem_cons.mpr (Or.inr (lookupA_mem t k v hh))

/-- Setting an absent key appends it. -/
theorem setA_not_mem {β : Type} :
    ∀ (l : List (Nat × β)) (k : Nat) (v : β), k ∉ l.map Prod.fst → setA l k v = l ++ [(k, v)]
  | [], _, _, _ => rfl
  | (k0, w) :: t, k, v, h => by
    unfold setA
    have hk : k0 ≠ k := fun hh => h (by simp [hh])
    rw [if_neg hk]
    simp [setA_not_mem t k v (fun hm => h (by simp [hm]))]

/-- Looking a key up past entries that cannot match it. -/
theorem lookupA_append_right {β : Type} :
    ∀ (l m : List (Nat × β)) (k : Nat), k ∉ l.map Prod.fst → lookupA (l ++ m) k = lookupA m k
  | [], _, _, _ => rfl
  | (k0, w) :: t, m, k, h => by
    have hk : k0 ≠ k := fun hh => h (by simp [hh])
    show (if k0 = k then some w else lookupA (t ++ m) k) = lookupA m k
    rw [if_neg hk]
    exact lookupA_append_right t m k (fun hm => h (by simp [hm]))

/-- Overwriting the last, freshly appended key. -/
theorem setA_append_right {β : Type} :
    ∀ (l : List (Nat × β)) (k : Nat) (v w : β), k ∉ l.map Prod.fst →
      setA (l ++ [(k, w)]) k v = l ++ [(k, v)]
  | [], k, v, w, _ => by simp [setA]
  | (k0, u) :: t, k, v, w, h => by
    have hk : k0 ≠ k := fun hh => h (by simp [hh])
    show (if k0 = k then _ else (k0, u) :: setA (t ++ [(k, w)]) k v) = (k0, u) :: (t ++ [(k, v)])
    rw [if_neg hk]
    simp [setA_append_right t k v w (fun hm => h (by simp [hm]))]

/-- Calling `add_hpo` on a fresh in-graph term appends the tally `(term, 1)` and
bumps the total. -/
theorem add_hpo_new (g : HPOGraph) (st : ICState) (term : Nat)
    (hl : lookupA st.hpo_counts term = none) (hn : g.hasNode term = true) :
    add_hpo g st term = { st with
      hpo_counts := st.hpo_counts ++ [(term, 1)]
      total_freq := st.total_freq + 1 } := by
  have hmem : term ∉ st.hpo_counts.map Prod.fst := (lookupA_eq_none_iff _ _).mp hl
  unfold add_hpo
  simp only [hl]
  rw [if_pos hn, setA_not_mem _ _ _ hmem]
  have h0 : lookupD (st.hpo_counts ++ [(term, 0)]) term = 0 := by
    unfold lookupD
    rw [lookupA_append_right _ _ _ hmem]
    simp [lookupA]
  rw [h0, setA_append_right _ _ _ _ hmem]

/-- One `add_hpo` call preserves the build-phase state shape. -/
theorem add_hpo_wf (g : HPOGraph) (st : ICState) (term : Nat) (h : TallyWF st) :
    TallyWF (add_hpo g st term) := by
  obtain ⟨hnd, hone, hlen, hcc, hic⟩ := h
  cases hl : lookupA st.hpo_counts term with
  | some v =>
    unfold add_hpo
    simp only [hl]
    exact ⟨hnd, hone, le_trans hlen (Nat.le_succ _), hcc, hic⟩
  | none =>
    by_cases hn : g.hasNode term = true
    · rw [add_hpo_new g st term hl hn]
      have hmem : term ∉ st.hpo_counts.map Prod.fst := (lookupA_eq_none_iff _ _).mp hl
      refine ⟨?_, ?_, ?_, hcc, hic⟩
      · simp only [List.map_append]
        rw [List.nodup_append]
        refine ⟨hnd, List.nodup_singleton _, ?_⟩
        intro a ha hax
        simp only [List.map_cons, List.map_nil, List.mem_cons, List.not_mem_nil, or_false] at hax
        exact hmem (hax ▸ ha)
      · intro p hp
        rcases List.mem_append.mp hp with h1 | h1
        · exact hone p h1
        · simp only [List.mem_cons, List.not_mem_nil, or_false] at h1
          rw [h1]
      · simp only [List.length_append, List.length_cons, List.length_nil]
        omega
    · unfold add_hpo
      simp only [hl]
      rw [if_neg hn]
      exact ⟨hnd, hone, hlen, hcc, hic⟩

/-- The whole build phase preserves the build-phase state shape. -/
theorem tally_preserves_wf (g : HPOGraph) :
    ∀ (population : List (List Nat)) (st : ICState), TallyWF st →
      TallyWF (tally_hpo_terms g st population)
  | [], _, h => h
  | terms :: rest, st, h => by
    unfold tally_hpo_terms
    simp only [List.foldl_cons]
    have hinner : ∀ (ts : List Nat) (s : ICState), TallyWF s → TallyWF (ts.foldl (add_hpo g) s) := by
      intro ts
      induction ts with
      | nil => exact fun s hs => hs
      | cons t ts ih => exact fun s hs => ih _ (add_hpo_wf g s t hs)
    exact tally_preserves_wf g rest _ (hinner terms st h)

/-- When every stored tally is 1, a sum of lookups over distinct keys is
bounded by the number of stored keys. -/
theorem sum_lookupD_le (cnts : List (Nat × Nat)) (hone : ∀ p ∈ cnts, p.2 = 1)
    (K : List Nat) (hK : K.Nodup) : (K.map (lookupD cnts)).sum ≤ cnts.length := by
  have hsum : ∀ (L : List Nat), (L.map (lookupD cnts)).sum
      = (L.filter (fun k => (lookupA cnts k).isSome)).length := by
    intro L
    induction L with
    | nil => rfl
    | cons k t ih =>
      simp only [List.map_cons, List.sum_cons, List.filter_cons]
      cases hk : lookupA cnts k with
      | none => simp [lookupD, hk, ih]
      | some v =>
        have hv : v = 1 := hone (k, v) (lookupA_mem cnts k v hk)
        simp only [lookupD, hk, hv, Option.getD_some, Option.isSome_some, if_true, ih,
          List.length_cons]
        omega
  rw [hsum]
  have hsub : (K.filter (fun k => (lookupA cnts k).isSome)) ⊆ cnts.map Prod.fst := by
    intro x hx
    have h1 := List.of_mem_filter hx
    cases hl : lookupA cnts x with
    | none => rw [hl] at h1; simp at h1
    | some v => exact List.mem_map.mpr ⟨(x, v), lookupA_mem cnts x v hl, rfl⟩
  have hndf : (K.filter (fun k => (lookupA cnts k).isSome)).Nodup := hK.filter _
  calc (K.filter (fun k => (lookupA cnts k).isSome)).length
      ≤ (cnts.map Prod.fst).length := (hndf.subperm hsub).length_le
    _ = cnts.length := List.length_map _ _

/-- The breadth-first closure never records a node twice. -/
theorem reachAux_nodup (next : Nat → List Nat) :
    ∀ (fuel : Nat) (frontier visited : List Nat), visited.Nodup →
      (reachAux next fuel frontier visited).Nodup
  | 0, _, _, h => h
  | _ + 1, [], _, h => h
  | fuel + 1, x :: rest, visited, h => by
    unfold reachAux
    by_cases hx : visited.contains x = true
    · rw [if_pos hx]
      exact reachAux_nodup next fuel rest visited h
    · rw [if_neg hx]
      refine reachAux_nodup next fuel _ _ ?_
      rw [List.nodup_append]
      refine ⟨h, List.nodup_singleton _, ?_⟩
      intro a ha hax
      simp only [List.mem_singleton] at hax
      subst hax
      exact hx (by simpa [List.contains, List.elem_iff] using ha)

/-- The descendant set is duplicate-free. -/
theorem get_subterms_nodup (g : HPOGraph) (t : Nat) : (get_subterms g t).Nodup :=
  (reachAux_nodup _ _ _ _ List.nodup_nil).filter _

/-- The descendant closure, like `networkx.descendants`, excludes the source term. -/
theorem not_mem_get_subterms (g : HPOGraph) (t : Nat) : t ∉ get_subterms g t := by
  intro h
  have h1 := List.of_mem_filter h
  simp at h1

/-- During and after the build phase, no term's subtree count can exceed
the running total. -/
theorem countFor_le_total (g : HPOGraph) (st : ICState) (t : Nat) (h : TallyWF st) :
    countFor g st.hpo_counts t ≤ st.total_freq := by
  obtain ⟨hnd, hone, hlen, _, _⟩ := h
  have hK : (t :: get_subterms g t).Nodup := by
    rw [List.nodup_cons]
    exact ⟨not_mem_get_subterms g t, get_subterms_nodup g t⟩
  have hb := sum_lookupD_le st.hpo_counts hone (t :: get_subterms g t) hK
  simp only [List.map_cons, List.sum_cons] at hb
  unfold countFor
  omega

/-- C9 counterexample: term 3 is in the graph and the total is positive
after the build phase, yet its information content is *not* defined — its
subtree was never tallied, so `math.log(0/1)` raises `ValueError`
(embedded `none`). -/
theorem calculate_information_content_zero_count_raises :
    gFork.hasNode 3 = true ∧
    0 < (tally_hpo_terms gFork initState [[2]]).total_freq ∧
    calculate_information_content gFork (tally_hpo_terms gFork initState [[2]]) 3 = none :=
  ⟨rfl, by decide, rfl⟩

/-- C9 amended: after a build phase with a positive total, the
information content of an in-graph term is defined and non-negative
*provided its subtree count is positive*; a zero subtree count instead
raises (`math.log 0`), as the counterexample shows. -/
theorem information_content_nonneg_amended (g : HPOGraph) (population : List (List Nat))
    (t : Nat) (hnode : g.hasNode t = true)
    (htot : 0 < (tally_hpo_terms g initState population).total_freq)
    (hcnt : 0 < countFor g (tally_hpo_terms g initState population).hpo_counts t) :
    ∃ v st1, calculate_information_content g (tally_hpo_terms g initState population) t
        = some (v, st1) ∧ 0 ≤ v := by
  have hwf := tally_preserves_wf g population initState
    ⟨List.nodup_nil, fun p hp => absurd hp (by simp [initState]), le_refl 0, rfl, rfl⟩
  have hcle := countFor_le_total g (tally_hpo_terms g initState population) t hwf
  obtain ⟨hnd, hone, hlen, hcc, hic⟩ := hwf
  have h1 : lookupA (tally_hpo_terms g initState population).ic_cache t = none := by
    rw [hic]
    rfl
  have h2 : lookupA (tally_hpo_terms g initState population).counts_cache t = none := by
    rw [hcc]
    rfl
  have h3 : get_term_count g (tally_hpo_terms g initState population) t
      = (countFor g (tally_hpo_terms g initState population).hpo_counts t,
        { tally_hpo_terms g initState population with
          counts_cache := setA (tally_hpo_terms g initState population).counts_cache t
            (countFor g (tally_hpo_terms g initState population).hpo_counts t) }) := by
    unfold get_term_count
    simp only [h2]
    rw [if_pos hnode]
  have h4 : ((countFor g (tally_hpo_terms g initState population).hpo_counts t : ℝ)
      / ((tally_hpo_terms g initState population).total_freq : ℝ)) ≤ 1 := by
    rw [div_le_one (by exact_mod_cast htot)]
    exact_mod_cast hcle
  have h5 : (0 : ℝ) ≤ (countFor g (tally_hpo_terms g initState population).hpo_counts t : ℝ)
      / ((tally_hpo_terms g initState population).total_freq : ℝ) := by positivity
  have h6 : (0 : ℝ) ≤ -Real.log ((countFor g (tally_hpo_terms g initState population).hpo_counts t : ℝ)
      / ((tally_hpo_terms g initState population).total_freq : ℝ)) := by
    have := Real.log_nonpos h5 h4
    linarith
  have heq : calculate_information_content g (tally_hpo_terms g initState population) t
      = some (-Real.log ((countFor g (tally_hpo_terms g initState population).hpo_counts t : ℝ)
          / ((tally_hpo_terms g initState population).total_freq : ℝ)),
        { (get_term_count g (tally_hpo_terms g initState population) t).2 with
          ic_cache := setA (get_term_count g (tally_hpo_terms g initState population) t).2.ic_cache t
            (-Real.log ((countFor g (tally_hpo_terms g initState population).hpo_counts t : ℝ)
              / ((tally_hpo_terms g initState population).total_freq : ℝ))) }) := by
    unfold calculate_information_content
    simp only [h1, h3]
    rw [if_pos hnode,
      if_neg (by omega : ¬((tally_hpo_terms g initState population).total_freq = 0)),
      if_neg (by omega : ¬(countFor g (tally_hpo_terms g initState population).hpo_counts t = 0))]
  exact ⟨_, _, heq, h6⟩

/-- C9 witness: the amended statement at graph 1→2 tallied with `[[2]]`;
term 2 has subtree count 1 of total 1, so its information content is the
defined, non-negative `-log(1/1)`. -/
theorem information_content_nonneg_witness :
    gChain.hasNode 2 = true ∧
    (∃ v st1, calculate_information_content gChain (tally_hpo_terms gChain initState [[2]]) 2
        = some (v, st1) ∧ 0 ≤ v) :=
  ⟨by decide, information_content_nonneg_amended gChain [[2]] 2 (by decide) (by decide) (by decide)⟩
